import Mathlib

/-!
Verification of the einsum-equation analyzer and the int8 dynamic-quantization
lifecycle of `keras/layers/core/einsum_dense.py`.

The development shallowly embeds the relevant Python functions:

* `_analyze_einsum_string` / `_analyze_quantization_info.get_specs` dispatch on
  three regular expressions applied with `re.match` (anchored at the start of
  the string only).  The three patterns are modelled by `match1`, `match2`,
  `match3` below; the greedy character-class groups are maximal runs of ASCII
  letters, which is an exact model because every group is delimited by a
  non-letter character.
* `_analyze_split_string` is modelled by `analyzeSplitString`, including the
  Python dict semantics (later duplicate keys win), negative-index list access,
  and the exact order in which the various `ValueError`s are raised.
* `_analyze_quantization_info` is modelled by `analyzeQuantizationInfo`.
  Both call sites pass the integer `self.input_spec.ndim` as `input_shape`,
  so the two ellipsis branches of `get_specs` raise `TypeError` at
  `len(input_shape)` (lines 651 and 672).  The loop variable `index` of the
  axis-correction pass is assigned by the reduced-axes find loops before the
  correction loops run and persists across both operand loops; when
  `expand_axes.pop(0)` raises `IndexError`, the subsequent
  `transpose_axes.insert(index, ori_index)` still runs with that current
  value, which may be `-1` (a Python insert before the last element).  This
  is modelled by `corrLoop` and the seeding in `analyzeQuantizationInfo`.
* The layer lifecycle (`quantize`, the `kernel` property,
  `load_own_variables`, `quantized_build`) is modelled at the level of dtypes,
  shapes and (for the kernel/LoRA claims) rational-valued tensors.

Machine integers do not occur: all the Python quantities involved are
unbounded `int`s, lists and strings, modelled by `Nat`/`Int`, `List` and
`List Char`.
-/

/-- Errors raised by the embedded code.  Each constructor corresponds to one
`raise` site (or one implicit Python runtime error site) in the source. -/
inductive QErr where
  /-- The `ValueError` for an equation matching none of the three grammars. -/
  | invalidEquation
  /-- The `TypeError` raised by `len(input_shape)` at lines 651 and 672: the
  ellipsis branches of `get_specs` apply `len` to the integer input rank that
  both call sites pass. -/
  | typeError
  /-- The `UnboundLocalError` Python would raise at a fallback insert if the
  loop variable `index` had never been assigned; the reduced-axes find loops
  assign it once per spec label, so this needs both specs empty, which the
  grammars exclude. -/
  | unboundLocal
  /-- An out-of-range Python list subscript. -/
  | indexError
  /-- A missing Python dict key. -/
  | keyError
  /-- The `ValueError` for input/output shapes disagreeing at a shared label. -/
  | sharedDimMismatch
  /-- The `ValueError` for an output label absent from input and weight specs. -/
  | outputDimUnmatched
  /-- The `ValueError` for a weight label absent from input and output specs. -/
  | weightDimUnmatched
  /-- The `ValueError` for a bias axis absent from the output spec. -/
  | biasAxisMissing
  /-- The `ValueError` raised by `min` applied to an empty list. -/
  | minEmpty
  /-- The `ValueError` rejecting a second `quantize` call. -/
  | doubleQuantize
  /-- A shape error raised by one of the backend tensor operations. -/
  | opsError
  deriving DecidableEq, Repr

instance {ε α : Type _} [DecidableEq ε] [DecidableEq α] :
    DecidableEq (Except ε α) := fun a b =>
  match a, b with
  | .error e1, .error e2 =>
    if h : e1 = e2 then .isTrue (by rw [h]) else .isFalse (by simp [h])
  | .ok v1, .ok v2 =>
    if h : v1 = v2 then .isTrue (by rw [h]) else .isFalse (by simp [h])
  | .error _, .ok _ => .isFalse (by simp)
  | .ok _, .error _ => .isFalse (by simp)

/-- Python `list.insert(n, a)`: insert at position `n`, appending when `n` is
at least the length of the list. -/
def pyInsert (n : Nat) (a : α) (l : List α) : List α :=
  l.take n ++ a :: l.drop n

/-- Python `list.insert(i, a)` with an `Int` index: a negative index counts
from the end (clamped below at position 0), an index past the end appends. -/
def pyInsertInt (i : Int) (a : α) (l : List α) : List α :=
  if 0 ≤ i then pyInsert i.toNat a l
  else pyInsert ((l.length : Int) + i).toNat a l

/-- Python list subscript `l[i]` with an `Int` index: negative indices count
from the end, and out-of-range access raises `IndexError`. -/
def pyGet (l : List α) (i : Int) : Except QErr α :=
  if 0 ≤ i then
    match l.get? i.toNat with
    | some a => .ok a
    | none => .error .indexError
  else
    if (-i).toNat ≤ l.length then
      match l.get? (l.length - (-i).toNat) with
      | some a => .ok a
      | none => .error .indexError
    else .error .indexError

/-- First index of character `c` in a list, the model of Python `str.find`
restricted to single-character needles (returning `none` for `-1`). -/
def findFirst (c : Char) : List Char → Option Nat
  | [] => none
  | x :: xs => if x = c then some 0 else (findFirst c xs).map (· + 1)

/-- Python `str.find` returning `-1` when the character is absent. -/
def findInt (c : Char) (l : List Char) : Int :=
  match findFirst c l with
  | some i => (i : Int)
  | none => -1

/-- Membership test for characters, the model of Python `in` on strings. -/
def hasChar (l : List Char) (c : Char) : Bool :=
  match l with
  | [] => false
  | x :: xs => x = c || hasChar xs c

/-- Model of `re.sub(r"\.\.\.", "0", equation)`: replace each non-overlapping
run of three dots, scanning left to right, by the character `0`. -/
def dotReplace : List Char → List Char
  | '.' :: '.' :: '.' :: rest => '0' :: dotReplace rest
  | c :: rest => c :: dotReplace rest
  | [] => []

/-- Model of the regex `([a-zA-Z]+),([a-zA-Z]+)->([a-zA-Z]+)` applied with
`re.match`: the match is anchored at the start of the string and the tail
after the third group is ignored.  Each greedy group is the maximal run of
ASCII letters starting at its position. -/
def match1 (s : List Char) : Option (List Char × List Char × List Char) :=
  let a := s.takeWhile Char.isAlpha
  match s.dropWhile Char.isAlpha with
  | y :: r2 =>
    if y = ',' then
      let b := r2.takeWhile Char.isAlpha
      match r2.dropWhile Char.isAlpha with
      | d1 :: d2 :: r4 =>
        if d1 = '-' ∧ d2 = '>' then
          let c := r4.takeWhile Char.isAlpha
          if a.isEmpty || b.isEmpty || c.isEmpty then none else some (a, b, c)
        else none
      | _ => none
    else none
  | [] => none

/-- Model of the regex `0([a-zA-Z]+),([a-zA-Z]+)->0([a-zA-Z]+)` applied with
`re.match` (ellipsis on the left of input and output specs). -/
def match2 (s : List Char) : Option (List Char × List Char × List Char) :=
  match s with
  | z :: s1 =>
    if z = '0' then
      let a := s1.takeWhile Char.isAlpha
      match s1.dropWhile Char.isAlpha with
      | y :: r2 =>
        if y = ',' then
          let b := r2.takeWhile Char.isAlpha
          match r2.dropWhile Char.isAlpha with
          | d1 :: d2 :: d3 :: r4 =>
            if d1 = '-' ∧ d2 = '>' ∧ d3 = '0' then
              let c := r4.takeWhile Char.isAlpha
              if a.isEmpty || b.isEmpty || c.isEmpty then none
              else some (a, b, c)
            else none
          | _ => none
        else none
      | [] => none
    else none
  | [] => none

/-- Model of the regex `([a-zA-Z]{2,})0,([a-zA-Z]+)->([a-zA-Z]+)0` applied
with `re.match` (ellipsis on the right of input and output specs). -/
def match3 (s : List Char) : Option (List Char × List Char × List Char) :=
  let a := s.takeWhile Char.isAlpha
  match s.dropWhile Char.isAlpha with
  | d0 :: d1 :: r2 =>
    if d0 = '0' ∧ d1 = ',' then
      let b := r2.takeWhile Char.isAlpha
      match r2.dropWhile Char.isAlpha with
      | e1 :: e2 :: r4 =>
        if e1 = '-' ∧ e2 = '>' then
          let c := r4.takeWhile Char.isAlpha
          match r4.dropWhile Char.isAlpha with
          | f1 :: _ =>
            if f1 = '0' then
              if a.length < 2 || b.isEmpty || c.isEmpty then none
              else some (a, b, c)
            else none
          | [] => none
        else none
      | _ => none
    else none
  | _ => none

/-- Model of `_analyze_quantization_info.get_specs`: dispatch the dot-replaced
equation over the three grammars.  Both call sites pass the integer
`self.input_spec.ndim` as `input_shape` (lines 311 and 398), so the two
ellipsis branches crash with `TypeError` at `elided = len(input_shape) - ...`
(lines 651 and 672) right after the regex match; the label-padding code below
those lines is unreachable and is therefore not part of the model. -/
def getSpecs (equation : List Char) (inputRank : Nat) :
    Except QErr (List Char × List Char × List Char) :=
  let d := dotReplace equation
  match match1 d with
  | some (i, w, o) => .ok (i, w, o)
  | none =>
    match match2 d with
    | some _ => .error .typeError
    | none =>
      match match3 d with
      | some _ => .error .typeError
      | none => .error .invalidEquation

/-- Positions `i` in `walk` whose character does not occur in `big`, counted
from starting index `start`.  With `big := output_spec` and
`walk := operand_spec` this is the reduced-axes loop; with the roles swapped
it is the expand-axes loop of `_analyze_quantization_info`. -/
def absentPositionsAux (big : List Char) : List Char → Nat → List Nat
  | [], _ => []
  | c :: cs, start =>
    if hasChar big c then absentPositionsAux big cs (start + 1)
    else start :: absentPositionsAux big cs (start + 1)

/-- Positions in `walk` whose character does not occur in `big`. -/
def absentPositions (big walk : List Char) : List Nat :=
  absentPositionsAux big walk 0

/-- Initial transpose list of `_analyze_quantization_info`: for each output
label present in the operand spec, the first index of that label in the
operand spec. -/
def transposeInit (operand out : List Char) : List Nat :=
  out.filterMap (fun c => findFirst c operand)

/-- State of the axis-correction loop of `_analyze_quantization_info`:
the pending expand slots, the transpose list under construction, the squeeze
list under construction, and the current value of the Python variable
`index`, last assigned either by the reduced-axes find loops (where it may
be `-1`) or by a successful `pop(0)`. -/
structure CorrState where
  expand : List Nat
  transpose : List Nat
  squeeze : List Nat
  lastIdx : Int
  deriving DecidableEq, Repr

/-- The axis-correction loop (`for ori_index in ..._reduced_axes`).  The
`insert` statement sits outside the `try`/`except`, so when `pop(0)` raises
`IndexError` the insert still runs with the current value of `index`: the
most recently consumed slot, or — before any pop of this loop succeeded —
the value carried in from the find loops or from the other operand loop,
which may be `-1` (a Python insert before the last element). -/
def corrLoop : List Nat → CorrState → CorrState
  | [], st => st
  | a :: rest, st =>
    match st.expand with
    | i :: es =>
      corrLoop rest ⟨es, pyInsert i a st.transpose, st.squeeze, (i : Int)⟩
    | [] =>
      corrLoop rest
        ⟨[], pyInsertInt st.lastIdx a st.transpose, st.squeeze ++ [a],
         st.lastIdx⟩

/-- The nine values returned by `_analyze_quantization_info`. -/
structure AxisPlan where
  inputReduced : List Nat
  weightReduced : List Nat
  inputTranspose : List Nat
  weightTranspose : List Nat
  inputExpand : List Nat
  weightExpand : List Nat
  inputSqueeze : List Nat
  weightSqueeze : List Nat
  customGradEquation : List Char
  deriving DecidableEq, Repr

/-- Model of `_analyze_quantization_info(equation, input_shape)` where
`input_shape` is the input rank.  The reduced-axes find loops assign the
variable `index` once per input label and then once per weight label, so the
correction pass for the input operand starts with `index` holding the find
position of the last label of `input_spec ++ weight_spec` (possibly `-1`),
and the weight loop continues with whatever value the input loop left
behind.  The variable could be unbound only if both specs were empty, which
the grammars exclude; that dead case is mapped to `QErr.unboundLocal`. -/
def analyzeQuantizationInfo (equation : List Char) (inputRank : Nat) :
    Except QErr AxisPlan :=
  match getSpecs equation inputRank with
  | .error e => .error e
  | .ok (i, w, o) =>
    match (i ++ w).getLast? with
    | none => .error .unboundLocal
    | some cLast =>
      let iRed := absentPositions o i
      let wRed := absentPositions o w
      let iExp := absentPositions i o
      let wExp := absentPositions w o
      let iTr := transposeInit i o
      let wTr := transposeInit w o
      let st1 := corrLoop iRed ⟨iExp, iTr, [], findInt cLast o⟩
      let st2 := corrLoop wRed ⟨wExp, wTr, [], st1.lastIdx⟩
      .ok ⟨iRed, wRed, st1.transpose, st2.transpose, st1.expand, st2.expand,
           st1.squeeze, st2.squeeze, o ++ ',' :: w ++ '-' :: '>' :: i⟩

/-- Python dict lookup for a dict built by a comprehension over the listed
entries: a later entry with the same key overrides an earlier one. -/
def dictLookup : List (Char × α) → Char → Option α
  | [], _ => none
  | (k, v) :: rest, c =>
    match dictLookup rest c with
    | some v2 => some v2
    | none => if k = c then some v else none

/-- Loop `for i in range(1, elided): output_shape.insert(1, input_shape[i])`
of `_analyze_split_string` (the left-elided case), iterated over the given
index list. -/
def leftElidedIns (inputShape : List (Option Nat)) :
    List Nat → List (Option Nat) → Except QErr (List (Option Nat))
  | [], out => .ok out
  | i :: rest, out =>
    match pyGet inputShape (i : Int) with
    | .error e => .error e
    | .ok v => leftElidedIns inputShape rest (pyInsert 1 v out)

/-- Shared-dimension check of `_analyze_split_string`: for each input label,
when the label also occurs in the output spec, the input size and a
non-`None` output size must agree (Python `!=` on optional ints). -/
def sharedDimCheck (inEntries outEntries : List (Char × Int))
    (inputShape fullOut : List (Option Nat)) : List Char → Except QErr Unit
  | [] => .ok ()
  | dim :: rest =>
    match dictLookup inEntries dim with
    | none => .error .keyError
    | some idx =>
      match pyGet inputShape idx with
      | .error e => .error e
      | .ok v =>
        match dictLookup outEntries dim with
        | none => sharedDimCheck inEntries outEntries inputShape fullOut rest
        | some oi =>
          match pyGet fullOut oi with
          | .error e => .error e
          | .ok ov =>
            match ov with
            | none => sharedDimCheck inEntries outEntries inputShape fullOut rest
            | some x =>
              if some x ≠ v then .error .sharedDimMismatch
              else sharedDimCheck inEntries outEntries inputShape fullOut rest

/-- Check that every output label occurs in the input spec or the weight
spec. -/
def outputDimCheck (iSpec wSpec : List Char) : List Char → Except QErr Unit
  | [] => .ok ()
  | dim :: rest =>
    if ¬hasChar iSpec dim ∧ ¬hasChar wSpec dim then .error .outputDimUnmatched
    else outputDimCheck iSpec wSpec rest

/-- Weight-shape resolution of `_analyze_split_string`: each weight label
takes its size from the input shape when the label is an input-dict key, else
from the resolved output shape, else the `ValueError` is raised. -/
def weightShapeOf (inEntries outEntries : List (Char × Int))
    (inputShape fullOut : List (Option Nat)) :
    List Char → Except QErr (List (Option Nat))
  | [] => .ok []
  | dim :: rest =>
    match dictLookup inEntries dim with
    | some idx =>
      match pyGet inputShape idx with
      | .error e => .error e
      | .ok v =>
        match weightShapeOf inEntries outEntries inputShape fullOut rest with
        | .error e => .error e
        | .ok vs => .ok (v :: vs)
    | none =>
      match dictLookup outEntries dim with
      | some oi =>
        match pyGet fullOut oi with
        | .error e => .error e
        | .ok v =>
          match weightShapeOf inEntries outEntries inputShape fullOut rest with
          | .error e => .error e
          | .ok vs => .ok (v :: vs)
      | none => .error .weightDimUnmatched

/-- The dict comprehension
`{char: output_shape[i + num_left_elided] for i, char in enumerate(output_spec)}`
of the bias section; every subscript is evaluated eagerly, so an out-of-range
position raises before any later bias check. -/
def buildIdxMap (fullOut : List (Option Nat)) (off : Int) :
    List Char → Nat → Except QErr (List (Char × Option Nat))
  | [], _ => .ok []
  | c :: cs, i =>
    match pyGet fullOut ((i : Int) + off) with
    | .error e => .error e
    | .ok v =>
      match buildIdxMap fullOut off cs (i + 1) with
      | .error e => .error e
      | .ok rest => .ok ((c, v) :: rest)

/-- Check that every requested bias axis occurs in the output spec. -/
def biasAxesCheck (oSpec : List Char) : List Char → Except QErr Unit
  | [] => .ok ()
  | c :: rest =>
    if ¬hasChar oSpec c then .error .biasAxisMissing
    else biasAxesCheck oSpec rest

/-- The comprehension
`[idx_map[char] if char in bias_axes else 1 for char in bias_output_spec]`. -/
def biasShapeComp (idxEntries : List (Char × Option Nat)) (bs : List Char) :
    List Char → Except QErr (List (Option Nat))
  | [] => .ok []
  | c :: rest =>
    match
      (if hasChar bs c then
        match dictLookup idxEntries c with
        | some v => Except.ok v
        | none => Except.error QErr.keyError
      else Except.ok (some 1)) with
    | .error e => .error e
    | .ok v =>
      match biasShapeComp idxEntries bs rest with
      | .error e => .error e
      | .ok vs => .ok (v :: vs)

/-- Bias section of `_analyze_split_string` (the `bias_axes is not None`
branch), in source order: build `idx_map`, check the bias axes, take the
minimum of the find positions (raising on an empty list as Python `min`
does), build the per-label shape, and append a trailing `1` per elided axis
unless the ellipsis is on the left. -/
def biasSection (oSpec : List Char) (fullOut : List (Option Nat))
    (elided : Int) (leftElided : Bool) (bs : List Char) :
    Except QErr (List (Option Nat)) :=
  let off : Int := if leftElided then elided else 0
  match buildIdxMap fullOut off oSpec 0 with
  | .error e => .error e
  | .ok idxEntries =>
    match biasAxesCheck oSpec bs with
    | .error e => .error e
    | .ok _ =>
      match bs.map (fun c => findInt c oSpec) with
      | [] => .error .minEmpty
      | f :: fs =>
        let firstLoc := fs.foldl min f
        match biasShapeComp idxEntries bs (oSpec.drop firstLoc.toNat) with
        | .error e => .error e
        | .ok shape =>
          if leftElided then .ok shape
          else .ok (shape ++ List.replicate elided.toNat (some 1))

/-- Model of `_analyze_split_string(split_string, bias_axes, input_shape,
output_shape, left_elided)`.  Shape entries are `Option Nat` (`none` models a
Python `None` dimension); `givenOutputShape` is the already-normalized tuple
passed by the layer.  Returns the weight shape, the optional bias shape and
the full output shape. -/
def analyzeSplitString (iSpec wSpec oSpec : List Char) (leftElided : Bool)
    (biasAxes : Option (List Char)) (inputShape : List (Option Nat))
    (givenOutputShape : List (Option Nat)) :
    Except QErr (List (Option Nat) × Option (List (Option Nat)) ×
      List (Option Nat)) :=
  let elided : Int := (inputShape.length : Int) - (iSpec.length : Int)
  match pyGet inputShape 0 with
  | .error e => .error e
  | .ok s0 =>
    let out0 := s0 :: givenOutputShape
    match
      (if 0 < elided ∧ leftElided then
        leftElidedIns inputShape (List.range' 1 (elided.toNat - 1)) out0
      else if 0 < elided ∧ ¬leftElided then
        Except.ok (out0 ++ inputShape.drop (inputShape.length - elided.toNat))
      else Except.ok out0) with
    | .error e => .error e
    | .ok fullOut =>
      let inEntries : List (Char × Int) :=
        if leftElided then
          iSpec.enum.map
            (fun p => (p.2, ((p.1 : Int) + elided) - (inputShape.length : Int)))
        else iSpec.enum.map (fun p => (p.2, (p.1 : Int)))
      let outEntries : List (Char × Int) :=
        if leftElided then
          oSpec.enum.map (fun p => (p.2, (p.1 : Int) + elided))
        else oSpec.enum.map (fun p => (p.2, (p.1 : Int)))
      match sharedDimCheck inEntries outEntries inputShape fullOut iSpec with
      | .error e => .error e
      | .ok _ =>
        match outputDimCheck iSpec wSpec oSpec with
        | .error e => .error e
        | .ok _ =>
          match weightShapeOf inEntries outEntries inputShape fullOut wSpec with
          | .error e => .error e
          | .ok wShape =>
            match biasAxes with
            | none => .ok (wShape, none, fullOut)
            | some bs =>
              match biasSection oSpec fullOut elided leftElided bs with
              | .error e => .error e
              | .ok bShape => .ok (wShape, some bShape, fullOut)

/-- Model of `_analyze_einsum_string(equation, bias_axes, input_shape,
output_shape)`: dispatch over the three grammars and delegate to
`analyzeSplitString`, with `left_elided` set only for the second grammar. -/
def analyzeEinsumString (equation : List Char) (biasAxes : Option (List Char))
    (inputShape : List (Option Nat)) (givenOutputShape : List (Option Nat)) :
    Except QErr (List (Option Nat) × Option (List (Option Nat)) ×
      List (Option Nat)) :=
  let d := dotReplace equation
  match match1 d with
  | some (i, w, o) =>
    analyzeSplitString i w o false biasAxes inputShape givenOutputShape
  | none =>
    match match2 d with
    | some (i, w, o) =>
      analyzeSplitString i w o true biasAxes inputShape givenOutputShape
    | none =>
      match match3 d with
      | some (i, w, o) =>
        analyzeSplitString i w o false biasAxes inputShape givenOutputShape
      | none => .error .invalidEquation

/-- Insertion into a sorted list, ascending. -/
def insSorted (a : Nat) : List Nat → List Nat
  | [] => [a]
  | b :: bs => if a ≤ b then a :: b :: bs else b :: insSorted a bs

/-- Model of Python `sorted` on a list of naturals. -/
def sortNat (l : List Nat) : List Nat := l.foldr insSorted []

/-- Numpy fancy assignment plus `tolist`: set the entries at the listed
positions to `1`. -/
def setOnesAt (shape : List Nat) (idxs : List Nat) : List Nat :=
  shape.enum.map (fun p => if idxs.contains p.1 then 1 else p.2)

/-- Numpy fancy indexing `arr[idxs]` on a shape vector. -/
def gatherIdx (shape : List Nat) (idxs : List Nat) : Except QErr (List Nat) :=
  if idxs.all (· < shape.length) then .ok (idxs.map (fun i => shape.getD i 0))
  else .error .indexError

/-- Python `list.pop(a)` for a non-negative index. -/
def popAt (l : List Nat) (a : Nat) : Except QErr (List Nat) :=
  if a < l.length then .ok (l.take a ++ l.drop (a + 1)) else .error .indexError

/-- The loop `for a in axes: kernel_scale_shape.pop(a)`. -/
def popLoop : List Nat → List Nat → Except QErr (List Nat)
  | [], l => .ok l
  | a :: rest, l =>
    match popAt l a with
    | .error e => .error e
    | .ok l2 => popLoop rest l2

/-- Kernel-scale shape computed by `EinsumDense.quantized_build` (the numpy
pipeline of lines 320 to 327): set the reduced axes to `1`, fancy-index by
the transpose list, insert a `1` at each expand axis in ascending order, then
pop each squeeze axis in descending order. -/
def quantizedBuildScaleShape (kShape : List Nat) (plan : AxisPlan) :
    Except QErr (List Nat) :=
  if ¬plan.weightReduced.all (· < kShape.length) then .error .indexError
  else
    let s0 := setOnesAt kShape plan.weightReduced
    match gatherIdx s0 plan.weightTranspose with
    | .error e => .error e
    | .ok s1 =>
      let s2 := (sortNat plan.weightExpand).foldl (fun acc a => pyInsert a 1 acc) s1
      popLoop (sortNat plan.weightSqueeze).reverse s2

/-- Modelled from the spec: `ops.transpose(tensor, perm)` is provided by the
tensor-ops collaborator (not under `src/`), shape-checked at call time; the
permutation must cover the rank exactly. -/
def transposeShape (shape perm : List Nat) : Except QErr (List Nat) :=
  if perm.length = shape.length ∧ perm.all (· < shape.length) ∧ perm.Nodup then
    .ok (perm.map (fun i => shape.getD i 0))
  else .error .opsError

/-- Modelled from the spec: `ops.expand_dims(tensor, axis_list)` inserts a
size-1 axis at each listed position of the result; positions act as a set, so
the model inserts in ascending order with a bound check. -/
def expandShape (shape : List Nat) (axes : List Nat) : Except QErr (List Nat) :=
  if axes.Nodup then
    (sortNat axes).foldlM
      (fun acc a =>
        if a ≤ acc.length then Except.ok (pyInsert a 1 acc)
        else Except.error QErr.opsError)
      shape
  else .error .opsError

/-- Modelled from the spec: `ops.squeeze(tensor, axis_list)` removes the
listed axes of the current tensor, each of which must have size 1. -/
def squeezeShape (shape : List Nat) (axes : List Nat) : Except QErr (List Nat) :=
  if axes.all (fun a => a < shape.length && shape.getD a 0 == 1) then
    .ok ((shape.enum.filter (fun p => ¬axes.contains p.1)).map (fun p => p.2))
  else .error .opsError

/-- Shape of the kernel scale produced by the int8 branch of
`EinsumDense.quantize`: `abs_max_quantize` keeps the reduced axes as size 1
(modelled from the spec, `keras.quantizers` is not under `src/`), then the
scale is transposed, expanded and squeezed per the axis plan, skipping the
expand and squeeze steps when their axis lists are empty exactly as the
source does. -/
def scaleShapePipeline (kShape : List Nat) (plan : AxisPlan) :
    Except QErr (List Nat) :=
  if ¬plan.weightReduced.all (· < kShape.length) then .error .opsError
  else
    let s0 := setOnesAt kShape plan.weightReduced
    match transposeShape s0 plan.weightTranspose with
    | .error e => .error e
    | .ok s1 =>
      match (if plan.weightExpand ≠ [] then expandShape s1 plan.weightExpand
             else Except.ok s1) with
      | .error e => .error e
      | .ok s2 =>
        if plan.weightSqueeze ≠ [] then squeezeShape s2 plan.weightSqueeze
        else .ok s2

/-- Whether `needle` is a leading segment of `hay`. -/
def startsWithList : List Char → List Char → Bool
  | [], _ => true
  | _ :: _, [] => false
  | a :: as, b :: bs => a = b && startsWithList as bs

/-- Python substring containment `needle in hay`. -/
def containsSeq : List Char → List Char → Bool
  | [], needle => needle.isEmpty
  | h :: t, needle => startsWithList needle (h :: t) || containsSeq t needle

/-- Substring containment on strings. -/
def strHasSubstr (s sub : String) : Bool := containsSeq s.toList sub.toList

/-- Dtype-, shape- and policy-level state of an `EinsumDense` layer, the
fields read and replaced by `quantize`. -/
structure QLayerState where
  equation : List Char
  inputRank : Nat
  computeDtype : String
  dtypePolicyName : String
  dtypePolicyQuantized : Bool
  kernelDtype : String
  kernelShape : List Nat
  kernelScaleShape : Option (List Nat)
  plan : Option AxisPlan
  inputsQuantizerAxes : Option (List Nat)
  deriving DecidableEq, Repr

/-- Modelled from the spec: the dtype-policy constructors live in
`keras.dtype_policies.dtype_policy`, which is not under `src/`; a policy is
modelled as its name string.  The dispatch of `keras.dtype_policies.get`
(which is under `src/`) makes the resulting policy a `QuantizedDTypePolicy`
exactly when the string `"quantized"` occurs in the identifier. -/
def setPolicy (st : QLayerState) (mode : String) : QLayerState :=
  if st.dtypePolicyQuantized then st
  else
    let newName := mode ++ "_from_" ++ st.dtypePolicyName
    { st with dtypePolicyName := newName,
              dtypePolicyQuantized := strHasSubstr newName "quantized" }

/-- Model of `EinsumDense.quantize(mode)` as a state transition returning the
raised error (if any) together with the state as mutated up to the raise
point.  `Layer._check_quantize_args` is not under `src/` and the spec only
stipulates the compute-dtype checks; it is modelled from the spec as passing
(the repository driver `check_dynamic_int8.py` passes mode `"dynamic_int8"`
through it).  In the non-`"int8"` branch the source evaluates
`NotImplementedError()` without raising it, so execution falls through to the
policy-replacement section; the model mirrors this fall-through. -/
def quantizeStep (st : QLayerState) (mode : String) :
    Option QErr × QLayerState :=
  if mode = "int8" then
    if st.kernelDtype = "int8" then (some .doubleQuantize, st)
    else
      match analyzeQuantizationInfo st.equation st.inputRank with
      | .error e => (some e, st)
      | .ok plan =>
        let st1 := { st with plan := some plan,
                             inputsQuantizerAxes := some plan.inputReduced }
        match scaleShapePipeline st1.kernelShape plan with
        | .error e => (some e, st1)
        | .ok sshape =>
          let st2 := { st1 with kernelDtype := "int8",
                                kernelScaleShape := some sshape }
          (none, setPolicy st2 mode)
  else
    (none, setPolicy st mode)

/-- Matrix product over an explicit inner dimension, the model of
`ops.matmul(self.lora_kernel_a, self.lora_kernel_b)` on the trailing two
axes. -/
def matProd (r : Nat) (a b : Nat → Nat → ℚ) : Nat → Nat → ℚ :=
  fun i j => ∑ k ∈ Finset.range r, a i k * b k j

/-- Value-level state of an `EinsumDense` layer for the kernel property and
variable loading: the stored `_kernel` variable (two-dimensional view), the
LoRA adapter matrices, the bias and the kernel scale. -/
structure KernelState where
  builtFlag : Bool
  loraEnabled : Bool
  loraRank : Nat
  kernelW : Nat → Nat → ℚ
  loraA : Nat → Nat → ℚ
  loraB : Nat → Nat → ℚ
  biasPresent : Bool
  biasV : Nat → ℚ
  policyQuantized : Bool
  kernelScaleV : Nat → Nat → ℚ

/-- Model of the `EinsumDense.kernel` property: raises `AttributeError` on an
unbuilt layer, and adds the adapter product to the stored kernel when LoRA is
enabled. -/
def layerKernel (st : KernelState) : Except String (Nat → Nat → ℚ) :=
  if st.builtFlag = false then
    .error "You must build the layer before accessing `kernel`."
  else if st.loraEnabled then
    .ok (fun i j => st.kernelW i j + matProd st.loraRank st.loraA st.loraB i j)
  else .ok st.kernelW

/-- Model of `EinsumDense.load_own_variables(store)` with store slots `"0"`
(kernel), `"1"` (bias) and `"2"` (kernel scale), mutating in source order:
assign the kernel, then the bias when present, then the scale when the policy
is quantized, and finally zero both LoRA matrices when LoRA is enabled. -/
def loadOwnVariables (st : KernelState) (store0 : Nat → Nat → ℚ)
    (store1 : Nat → ℚ) (store2 : Nat → Nat → ℚ) : KernelState :=
  let st1 := { st with kernelW := store0 }
  let st2 := if st1.biasPresent then { st1 with biasV := store1 } else st1
  let st3 :=
    if st2.policyQuantized then { st2 with kernelScaleV := store2 } else st2
  if st3.loraEnabled then
    { st3 with loraA := fun _ _ => 0, loraB := fun _ _ => 0 }
  else st3

/-- Nonempty run of ASCII letters, the language of one greedy letter group. -/
def alphaRun (l : List Char) : Prop := l ≠ [] ∧ l.all Char.isAlpha = true

/-- Statement of the no-ellipsis grammar with an arbitrary ignored tail,
written from the spec for comparison with the code matcher `match1`. -/
def grammarNoEllipsis (s : List Char) : Prop :=
  ∃ a b c r, alphaRun a ∧ alphaRun b ∧ alphaRun c ∧
    s = a ++ (',' :: (b ++ ('-' :: ('>' :: (c ++ r)))))

/-- Statement of the left-ellipsis grammar with an arbitrary ignored tail,
written from the spec for comparison with the code matcher `match2`. -/
def grammarLeftEllipsis (s : List Char) : Prop :=
  ∃ a b c r, alphaRun a ∧ alphaRun b ∧ alphaRun c ∧
    s = '0' :: (a ++ (',' :: (b ++ ('-' :: ('>' :: ('0' :: (c ++ r)))))))

/-- Statement of the right-ellipsis grammar with an arbitrary ignored tail,
written from the spec for comparison with the code matcher `match3`. -/
def grammarRightEllipsis (s : List Char) : Prop :=
  ∃ a b c r, 2 ≤ a.length ∧ a.all Char.isAlpha = true ∧ alphaRun b ∧
    alphaRun c ∧
    s = a ++ ('0' :: (',' :: (b ++ ('-' :: ('>' :: (c ++ ('0' :: r)))))))

/-- Position of the first output label that bears a bias axis. -/
def firstBiasIdx (bs : List Char) : List Char → Nat
  | [] => 0
  | c :: cs => if hasChar bs c then 0 else firstBiasIdx bs cs + 1

/-- Bias shape as the claim states it: from the first bias-bearing label
onward, each bias-labeled axis takes its size from the already-resolved
output shape at its own position (offset by the elided count when the
ellipsis is on the left) and every other axis gets a broadcasting `1`;
elided axes are appended as trailing `1`s exactly when the ellipsis is not on
the left.  This definition follows the words of the specification and is
compared against the code model `biasSection`. -/
def specBiasShape (oSpec : List Char) (fullOut : List (Option Nat))
    (bs : List Char) (off : Nat) (elided : Nat) (leftElided : Bool) :
    List (Option Nat) :=
  let first := firstBiasIdx bs oSpec
  (List.range (oSpec.length - first)).map
    (fun j =>
      if hasChar bs (oSpec.getD (first + j) ' ') then
        fullOut.getD (first + j + off) none
      else some 1)
  ++ (if leftElided then [] else List.replicate elided (some 1))

/-- Correction pass entered with a fresh squeeze list, the way
`_analyze_quantization_info` invokes it for each operand; `idx0` is the
value of `index` carried in from the preceding loops. -/
def corrRun (reduced expand transpose : List Nat) (idx0 : Int) : CorrState :=
  corrLoop reduced ⟨expand, transpose, [], idx0⟩

/-- A built float `EinsumDense` layer for equation `ab,bc->ac` with kernel
shape `(128, 64)` under the default `float32` policy. -/
def sampleLayer : QLayerState :=
  ⟨"ab,bc->ac".toList, 2, "float32", "float32", false, "float32", [128, 64],
   none, none, none⟩

/-- A built layer with LoRA enabled, used to witness the loading theorem. -/
def builtLoraLayer : KernelState :=
  ⟨true, true, 4, fun i j => (i : ℚ) + 2 * j, fun i j => (i : ℚ) * j,
   fun i j => (i : ℚ) + j, true, fun i => (i : ℚ), false, fun _ _ => 1⟩

/-- A layer that has not been built. -/
def unbuiltLayer : KernelState :=
  ⟨false, false, 0, fun _ _ => 0, fun _ _ => 0, fun _ _ => 0, false,
   fun _ => 0, false, fun _ _ => 0⟩

/-- C10: for every `EinsumDense` layer that has not been built, accessing the
`kernel` property raises `AttributeError` rather than returning a value. -/
theorem kernel_unbuilt_raises (st : KernelState) (h : st.builtFlag = false) :
    layerKernel st =
      Except.error "You must build the layer before accessing `kernel`." := by
  unfold layerKernel
  rw [h]
  simp

/-- Witness for `kernel_unbuilt_raises` at a concrete unbuilt layer. -/
theorem kernel_unbuilt_raises_witness :
    layerKernel unbuiltLayer =
      Except.error "You must build the layer before accessing `kernel`." :=
  kernel_unbuilt_raises unbuiltLayer rfl

/-- C9: after `load_own_variables` on a built layer with LoRA enabled, both
LoRA matrices are assigned all-zero tensors, so the effective kernel (stored
kernel plus the adapter product) equals exactly the kernel loaded under key
`"0"`. -/
theorem load_restores_exact_kernel (st : KernelState)
    (s0 : Nat → Nat → ℚ) (s1 : Nat → ℚ) (s2 : Nat → Nat → ℚ)
    (hb : st.builtFlag = true) (hl : st.loraEnabled = true) :
    layerKernel (loadOwnVariables st s0 s1 s2) = Except.ok s0 := by
  obtain ⟨bf, le, r, kW, lA, lB, bp, bv, pq, ks⟩ := st
  simp only at hb hl
  subst hb hl
  cases bp <;> cases pq <;>
  · simp only [loadOwnVariables, layerKernel, if_true, if_false,
      Bool.false_eq_true, reduceIte]
    refine congrArg Except.ok ?_
    funext i j
    simp [matProd]

/-- Witness for `load_restores_exact_kernel` at a concrete layer and store. -/
theorem load_restores_exact_kernel_witness :
    layerKernel
        (loadOwnVariables builtLoraLayer (fun (i j : Nat) => (i : ℚ) + j)
          (fun _ => 3) (fun _ _ => 5)) =
      Except.ok (fun (i j : Nat) => (i : ℚ) + j) :=
  load_restores_exact_kernel builtLoraLayer _ _ _ rfl rfl

/-- C2: for every layer state whose kernel is already int8-typed, a second
`quantize("int8")` call raises the double-quantization `ValueError` before
mutating anything, so the returned state is unchanged. -/
theorem quantize_double_raises (st : QLayerState)
    (h : st.kernelDtype = "int8") :
    quantizeStep st "int8" = (some QErr.doubleQuantize, st) := by
  unfold quantizeStep
  rw [h]
  simp

/-- Witness for `quantize_double_raises`: quantizing `sampleLayer` once
yields an int8 kernel, and the second call fails leaving that state
unchanged. -/
theorem quantize_double_raises_witness :
    (quantizeStep sampleLayer "int8").2.kernelDtype = "int8" ∧
    quantizeStep (quantizeStep sampleLayer "int8").2 "int8" =
      (some QErr.doubleQuantize, (quantizeStep sampleLayer "int8").2) :=
  ⟨by decide, quantize_double_raises _ (by decide)⟩

/-- C1 (code bug): with the compute-dtype checks passing, a `quantize` call
with the unsupported mode `"dynamic_int8"` (the mode the repository driver
passes) raises nothing — the source builds `NotImplementedError()` without
`raise` — and proceeds to replace the dtype policy as if quantization had
succeeded, leaving the float kernel in place. -/
theorem quantize_nonint8_falls_through :
    quantizeStep sampleLayer "dynamic_int8" =
      (none,
        { sampleLayer with
            dtypePolicyName := "dynamic_int8_from_float32" }) ∧
    (quantizeStep sampleLayer "dynamic_int8").2.kernelDtype = "float32" := by
  constructor <;> decide

/-- C4: for equation `ab,bc->ac`, input shape `(None, 128)` and declared
output shape `(64,)`, the weight shape is `(128, 64)`, the analyzer yields
`weight_reduced_axes = [0]`, and the kernel-scale shape computed by
`quantized_build` is exactly `(1, 64)`. -/
theorem scale_shape_contract :
    analyzeEinsumString "ab,bc->ac".toList none [none, some 128] [some 64] =
      Except.ok ([some 128, some 64], none, [none, some 64]) ∧
    ∃ plan, analyzeQuantizationInfo "ab,bc->ac".toList 2 = Except.ok plan ∧
      plan.weightReduced = [0] ∧
      quantizedBuildScaleShape [128, 64] plan = Except.ok [1, 64] := by
  refine ⟨by decide,
    ⟨⟨[1], [0], [0, 1], [0, 1], [], [], [], [], "ac,bc->ab".toList⟩,
     by decide, by decide, by decide⟩⟩

/-- C3 counterexample: for equation `abc,bcd->ad` at input rank 3 the reduced
axes outnumber the expand slots on both operands; the overflow axis (input
axis 2, weight axis 1) lands in the squeeze list and is nevertheless also
inserted into the transpose list at the stale slot position, contradicting
the claim that a squeezed axis is not inserted into the transpose list. -/
theorem corr_pass_claim_cex :
    analyzeQuantizationInfo "abc,bcd->ad".toList 3 =
      Except.ok ⟨[1, 2], [0, 1], [0, 2, 1], [1, 0, 2], [], [], [2], [1],
        "ad,bcd->abc".toList⟩ ∧
    (2 ∈ [2] ∧ 2 ∈ [0, 2, 1]) ∧ (1 ∈ [1] ∧ 1 ∈ [1, 0, 2]) := by
  decide

/-- C6 counterexample: the regexes are applied with `re.match`, which only
anchors at the start, so `get_specs` accepts an equation whose ellipsis
occurs only in the output spec (`ab,bc->ac...`) and an equation with trailing
garbage (`ab,bc->ac??`), both of which the claim says are rejected. -/
theorem grammar_claim_cex :
    getSpecs "ab,bc->ac...".toList 2 =
      Except.ok ("ab".toList, "bc".toList, "ac".toList) ∧
    getSpecs "ab,bc->ac??".toList 2 =
      Except.ok ("ab".toList, "bc".toList, "ac".toList) := by
  decide
theorem pyInsert_length (n : Nat) (a : α) (l : List α) :
    (pyInsert n a l).length = l.length + 1 := by
  simp [pyInsert]
  omega

theorem pyInsert_perm (n : Nat) (a : α) (l : List α) :
    (pyInsert n a l).Perm (a :: l) := by
  unfold pyInsert
  have h1 : (l.take n ++ a :: l.drop n).Perm (a :: (l.take n ++ l.drop n)) :=
    List.perm_middle
  rwa [List.take_append_drop] at h1

theorem pyInsertInt_length (i : Int) (a : α) (l : List α) :
    (pyInsertInt i a l).length = l.length + 1 := by
  unfold pyInsertInt
  split <;> rw [pyInsert_length]

theorem pyInsertInt_perm (i : Int) (a : α) (l : List α) :
    (pyInsertInt i a l).Perm (a :: l) := by
  unfold pyInsertInt
  split <;> exact pyInsert_perm _ a l

theorem corrLoop_state :
    ∀ (reduced : List Nat) (st : CorrState),
      (corrLoop reduced st).transpose.length
          = st.transpose.length + reduced.length ∧
      (corrLoop reduced st).expand = st.expand.drop reduced.length ∧
      (corrLoop reduced st).squeeze
          = st.squeeze ++ reduced.drop st.expand.length ∧
      (corrLoop reduced st).transpose.Perm (st.transpose ++ reduced) := by
  intro reduced
  induction reduced with
  | nil =>
    intro st
    refine ⟨by simp [corrLoop], by simp [corrLoop], by simp [corrLoop], ?_⟩
    simp only [corrLoop]
    rw [List.append_nil]
  | cons a rest ih =>
    rintro ⟨exp, t, sq, last⟩
    cases exp with
    | cons i es =>
      obtain ⟨h1, h2, h3, h4⟩ := ih ⟨es, pyInsert i a t, sq, (i : Int)⟩
      dsimp only at h1 h2 h3 h4
      simp only [corrLoop]
      refine ⟨?_, ?_, ?_, ?_⟩
      · rw [h1, pyInsert_length]
        simp only [List.length_cons]
        omega
      · rw [h2]
        simp
      · rw [h3]
        simp
      · have p1 : (pyInsert i a t ++ rest).Perm (a :: (t ++ rest)) :=
          (pyInsert_perm i a t).append_right rest
        have p2 : (a :: (t ++ rest)).Perm (t ++ a :: rest) :=
          List.perm_middle.symm
        exact h4.trans (p1.trans p2)
    | nil =>
      obtain ⟨h1, h2, h3, h4⟩ :=
        ih ⟨[], pyInsertInt last a t, sq ++ [a], last⟩
      dsimp only at h1 h2 h3 h4
      simp only [corrLoop]
      refine ⟨?_, ?_, ?_, ?_⟩
      · rw [h1, pyInsertInt_length]
        simp only [List.length_cons]
        omega
      · rw [h2]
        simp
      · rw [h3]
        simp
      · have p1 : (pyInsertInt last a t ++ rest).Perm (a :: (t ++ rest)) :=
          (pyInsertInt_perm last a t).append_right rest
        have p2 : (a :: (t ++ rest)).Perm (t ++ a :: rest) :=
          List.perm_middle.symm
        exact h4.trans (p1.trans p2)

/-- C3 (amended): in the correction pass, a reduced axis taken in original
order consumes a pending expand slot and is inserted into the transpose list
at that slot when a slot exists, the slot becoming the current value of the
Python variable `index`; when no slot remains the axis is pushed to the
squeeze list and is nevertheless ALSO inserted into the transpose list at
the current value of `index` — the most recently consumed slot, or, when
this operand's loop has consumed none, the value carried in from the
reduced-axes find loops or from the other operand's loop, which may be `-1`
(a Python insert before the last element).  Hence every reduced axis is
inserted: the transpose list grows by the full reduced count and its
multiset gains every reduced axis, while the squeeze list collects exactly
the overflow axes in order, whatever the carried-in index.  The second
conjunct certifies the carried-in case on `ab,ab->a` at rank 2: the find
loops assign `index = output_spec.find(label)` for each label of
`input_spec` and then of `weight_spec`, so they leave
`index = "a".find("b") = -1`, the fallback inserts land before the last
element, and the analyzer returns a plan with transpose `[1, 0]` for both
operands rather than raising anything. -/
theorem corr_pass_amended :
    (∀ (reduced expand transpose : List Nat) (idx0 : Int),
        (corrRun reduced expand transpose idx0).squeeze
            = reduced.drop expand.length ∧
        (corrRun reduced expand transpose idx0).expand
            = expand.drop reduced.length ∧
        (corrRun reduced expand transpose idx0).transpose.length
            = transpose.length + reduced.length ∧
        ((corrRun reduced expand transpose idx0).transpose : Multiset Nat)
            = ((transpose ++ reduced : List Nat) : Multiset Nat)) ∧
    analyzeQuantizationInfo "ab,ab->a".toList 2 =
      Except.ok ⟨[1], [1], [1, 0], [1, 0], [], [], [1], [1],
        "a,ab->ab".toList⟩ := by
  constructor
  · intro reduced expand transpose idx0
    obtain ⟨h1, h2, h3, h4⟩ :=
      corrLoop_state reduced ⟨expand, transpose, [], idx0⟩
    dsimp only at h1 h2 h3 h4
    refine ⟨by simpa using h3, h2, h1, Multiset.coe_eq_coe.mpr h4⟩
  · decide

theorem findFirst_isSome_eq_hasChar (c : Char) :
    ∀ l : List Char, (findFirst c l).isSome = hasChar l c := by
  intro l
  induction l with
  | nil => rfl
  | cons x xs ih =>
    simp only [findFirst, hasChar]
    by_cases hx : x = c
    · simp [hx]
    · simp [hx, ih]

theorem transposeInit_expand_length (op : List Char) :
    ∀ (out : List Char) (k : Nat),
      (transposeInit op out).length + (absentPositionsAux op out k).length
        = out.length := by
  intro out
  induction out with
  | nil => intro k; rfl
  | cons c cs ih =>
    intro k
    have hrec := ih (k + 1)
    simp only [transposeInit] at hrec
    by_cases hc : hasChar op c = true
    · have hsome : (findFirst c op).isSome = true := by
        rw [findFirst_isSome_eq_hasChar]; exact hc
      obtain ⟨v, hv⟩ := Option.isSome_iff_exists.mp hsome
      simp only [transposeInit, absentPositionsAux, hc,
        @List.filterMap_cons_some Char Nat (fun x => findFirst x op) c cs v hv, List.length_cons, if_true]
      omega
    · have hcf : hasChar op c = false := by
        cases hh : hasChar op c
        · rfl
        · exact absurd hh hc
      have hnone : findFirst c op = none := by
        have h2 := findFirst_isSome_eq_hasChar c op
        rw [hcf] at h2
        cases hfe : findFirst c op
        · rfl
        · rw [hfe] at h2; simp at h2
      simp only [transposeInit, absentPositionsAux, hcf,
        @List.filterMap_cons_none Char Nat (fun x => findFirst x op) c cs hnone, List.length_cons,
        Bool.false_eq_true, if_false]
      omega

theorem analyze_ok_destruct (e : List Char) (r : Nat)
    (i w o : List Char) (plan : AxisPlan)
    (hs : getSpecs e r = .ok (i, w, o))
    (ha : analyzeQuantizationInfo e r = .ok plan) :
    ∃ cLast st1 st2,
      (i ++ w).getLast? = some cLast ∧
      st1 = corrLoop (absentPositions o i)
          ⟨absentPositions i o, transposeInit i o, [], findInt cLast o⟩ ∧
      st2 = corrLoop (absentPositions o w)
          ⟨absentPositions w o, transposeInit w o, [], st1.lastIdx⟩ ∧
      plan = ⟨absentPositions o i, absentPositions o w, st1.transpose,
        st2.transpose, st1.expand, st2.expand, st1.squeeze, st2.squeeze,
        o ++ ',' :: w ++ '-' :: '>' :: i⟩ := by
  unfold analyzeQuantizationInfo at ha
  rw [hs] at ha
  dsimp only at ha
  cases hL : (i ++ w).getLast? with
  | none => rw [hL] at ha; exact Except.noConfusion ha
  | some cLast =>
    rw [hL] at ha
    dsimp only at ha
    exact ⟨cLast, _, _, rfl, rfl, rfl, (Except.ok.inj ha).symm⟩

/-- C5: for every equation and rank accepted by the analyzer, the returned
custom-gradient equation is exactly the string
`output_spec,weight_spec->input_spec` built from the ellipsis-expanded
specs. -/
theorem reciprocal_equation_eq (e : List Char) (r : Nat)
    (i w o : List Char) (plan : AxisPlan)
    (hs : getSpecs e r = .ok (i, w, o))
    (ha : analyzeQuantizationInfo e r = .ok plan) :
    plan.customGradEquation = o ++ ',' :: w ++ '-' :: '>' :: i := by
  obtain ⟨cLast, st1, st2, hL, hs1, hs2, hplan⟩ :=
    analyze_ok_destruct e r i w o plan hs ha
  rw [hplan]

/-- Witness for `reciprocal_equation_eq` at equation `ab,bc->ac`, rank 2. -/
theorem reciprocal_equation_eq_witness :
    (⟨[1], [0], [0, 1], [0, 1], [], [], [], [],
        "ac,bc->ab".toList⟩ : AxisPlan).customGradEquation =
      "ac".toList ++ ',' :: "bc".toList ++ '-' :: '>' :: "ab".toList :=
  reciprocal_equation_eq "ab,bc->ac".toList 2 "ab".toList "bc".toList
    "ac".toList ⟨[1], [0], [0, 1], [0, 1], [], [], [], [], "ac,bc->ab".toList⟩
    (by decide) (by decide)

/-- C7: for every equation and rank on which the analyzer succeeds, the
length of the transpose list plus the remaining expand count minus the
squeeze count equals the length of the (ellipsis-expanded) output spec, for
the input operand and for the weight operand alike. -/
theorem axis_plan_rank_invariant (e : List Char) (r : Nat)
    (i w o : List Char) (plan : AxisPlan)
    (hs : getSpecs e r = .ok (i, w, o))
    (ha : analyzeQuantizationInfo e r = .ok plan) :
    ((plan.inputTranspose.length : Int) + (plan.inputExpand.length : Int)
        - (plan.inputSqueeze.length : Int) = (o.length : Int)) ∧
    ((plan.weightTranspose.length : Int) + (plan.weightExpand.length : Int)
        - (plan.weightSqueeze.length : Int) = (o.length : Int)) := by
  obtain ⟨cLast, st1, st2, hL, hs1, hs2, hplan⟩ :=
    analyze_ok_destruct e r i w o plan hs ha
  obtain ⟨a1, a2, a3, a4⟩ := corrLoop_state (absentPositions o i)
    ⟨absentPositions i o, transposeInit i o, [], findInt cLast o⟩
  obtain ⟨b1, b2, b3, b4⟩ := corrLoop_state (absentPositions o w)
    ⟨absentPositions w o, transposeInit w o, [], st1.lastIdx⟩
  dsimp only at a1 a2 a3 b1 b2 b3
  rw [← hs1] at a1 a2 a3
  rw [← hs2] at b1 b2 b3
  have ki : (transposeInit i o).length + (absentPositions i o).length
      = o.length := transposeInit_expand_length i o 0
  have kw : (transposeInit w o).length + (absentPositions w o).length
      = o.length := transposeInit_expand_length w o 0
  have e2 : st1.expand.length
      = (absentPositions i o).length - (absentPositions o i).length := by
    rw [a2]; simp
  have e3 : st1.squeeze.length
      = (absentPositions o i).length - (absentPositions i o).length := by
    rw [a3]; simp
  have f2 : st2.expand.length
      = (absentPositions w o).length - (absentPositions o w).length := by
    rw [b2]; simp
  have f3 : st2.squeeze.length
      = (absentPositions o w).length - (absentPositions w o).length := by
    rw [b3]; simp
  subst hplan
  dsimp only
  constructor
  · omega
  · omega

/-- Witness for `axis_plan_rank_invariant` at equation `ab,bc->ac`, rank 2. -/
theorem axis_plan_rank_invariant_witness :
    (((⟨[1], [0], [0, 1], [0, 1], [], [], [], [],
          "ac,bc->ab".toList⟩ : AxisPlan).inputTranspose.length : Int)
        + ((⟨[1], [0], [0, 1], [0, 1], [], [], [], [],
          "ac,bc->ab".toList⟩ : AxisPlan).inputExpand.length : Int)
        - ((⟨[1], [0], [0, 1], [0, 1], [], [], [], [],
          "ac,bc->ab".toList⟩ : AxisPlan).inputSqueeze.length : Int)
        = (("ac".toList).length : Int)) ∧
    (((⟨[1], [0], [0, 1], [0, 1], [], [], [], [],
          "ac,bc->ab".toList⟩ : AxisPlan).weightTranspose.length : Int)
        + ((⟨[1], [0], [0, 1], [0, 1], [], [], [], [],
          "ac,bc->ab".toList⟩ : AxisPlan).weightExpand.length : Int)
        - ((⟨[1], [0], [0, 1], [0, 1], [], [], [], [],
          "ac,bc->ab".toList⟩ : AxisPlan).weightSqueeze.length : Int)
        = (("ac".toList).length : Int)) :=
  axis_plan_rank_invariant "ab,bc->ac".toList 2 "ab".toList "bc".toList
    "ac".toList ⟨[1], [0], [0, 1], [0, 1], [], [], [], [], "ac,bc->ab".toList⟩
    (by decide) (by decide)
theorem all_takeWhile (p : Char → Bool) :
    ∀ l : List Char, (l.takeWhile p).all p = true := by
  intro l
  induction l with
  | nil => rfl
  | cons x xs ih =>
    rw [List.takeWhile_cons]
    by_cases hx : p x = true
    · simp [hx, ih]
    · simp [hx]

theorem takeWhile_all_append (p : Char → Bool) (a : List Char) (y : Char)
    (ys : List Char) (ha : a.all p = true) (hy : p y = false) :
    (a ++ y :: ys).takeWhile p = a ∧ (a ++ y :: ys).dropWhile p = y :: ys := by
  induction a with
  | nil => simp [List.takeWhile_cons, List.dropWhile_cons, hy]
  | cons x xs ih =>
    rw [List.all_cons, Bool.and_eq_true] at ha
    obtain ⟨hx, hxs⟩ := ha
    obtain ⟨ih1, ih2⟩ := ih hxs
    constructor
    · simp only [List.cons_append, List.takeWhile_cons, hx, if_true, ih1]
    · simp only [List.cons_append, List.dropWhile_cons, hx, if_true, ih2]

theorem isEmpty_false_ne_nil (l : List Char) (h : l.isEmpty = false) :
    l ≠ [] := by
  cases l
  · simp at h
  · exact List.cons_ne_nil _ _

theorem match1_isSome_iff (s : List Char) :
    (match1 s).isSome = true ↔ grammarNoEllipsis s := by
  constructor
  · intro h
    unfold match1 at h
    dsimp only at h
    split at h
    case h_2 => simp at h
    case h_1 y r2 heq =>
      split at h
      case isFalse => simp at h
      case isTrue hy =>
        subst hy
        split at h
        case h_2 => simp at h
        case h_1 d1 d2 r4 heq2 =>
          split at h
          case isFalse => simp at h
          case isTrue hd =>
            obtain ⟨hd1, hd2⟩ := hd
            subst hd1
            subst hd2
            split at h
            case isTrue => simp at h
            case isFalse hcond =>
              rw [Bool.or_eq_true, Bool.or_eq_true] at hcond
              push_neg at hcond
              obtain ⟨⟨hae, hbe⟩, hce⟩ := hcond
              refine ⟨s.takeWhile Char.isAlpha, r2.takeWhile Char.isAlpha,
                r4.takeWhile Char.isAlpha, r4.dropWhile Char.isAlpha,
                ⟨isEmpty_false_ne_nil _ (by simpa using hae),
                  all_takeWhile _ _⟩,
                ⟨isEmpty_false_ne_nil _ (by simpa using hbe),
                  all_takeWhile _ _⟩,
                ⟨isEmpty_false_ne_nil _ (by simpa using hce),
                  all_takeWhile _ _⟩,
                ?_⟩
              have e1 : s.takeWhile Char.isAlpha ++ ',' :: r2 = s := by
                have t := List.takeWhile_append_dropWhile Char.isAlpha s
                rwa [heq] at t
              have e2 : r2.takeWhile Char.isAlpha ++ '-' :: '>' :: r4
                  = r2 := by
                have t := List.takeWhile_append_dropWhile Char.isAlpha r2
                rwa [heq2] at t
              have e3 : r4.takeWhile Char.isAlpha ++ r4.dropWhile Char.isAlpha
                  = r4 := List.takeWhile_append_dropWhile Char.isAlpha r4
              rw [e3, e2, e1]
  · rintro ⟨a, b, c, rest, ⟨ha1, ha2⟩, ⟨hb1, hb2⟩, ⟨hc1, hc2⟩, rfl⟩
    obtain ⟨z, zs, rfl⟩ : ∃ z zs, c = z :: zs := by
      cases c
      · exact absurd rfl hc1
      · exact ⟨_, _, rfl⟩
    have hz : Char.isAlpha z = true := by
      rw [List.all_cons, Bool.and_eq_true] at hc2
      exact hc2.1
    obtain ⟨h1, h2⟩ := takeWhile_all_append Char.isAlpha a ','
      (b ++ ('-' :: ('>' :: (z :: zs ++ rest)))) ha2 (by decide)
    obtain ⟨h3, h4⟩ := takeWhile_all_append Char.isAlpha b '-'
      ('>' :: (z :: zs ++ rest)) hb2 (by decide)
    obtain ⟨x, xs, rfl⟩ : ∃ x xs, a = x :: xs := by
      cases a
      · exact absurd rfl ha1
      · exact ⟨_, _, rfl⟩
    obtain ⟨y, ys, rfl⟩ : ∃ y ys, b = y :: ys := by
      cases b
      · exact absurd rfl hb1
      · exact ⟨_, _, rfl⟩
    have hx : Char.isAlpha x = true := by
      rw [List.all_cons, Bool.and_eq_true] at ha2
      exact ha2.1
    have hy2 : Char.isAlpha y = true := by
      rw [List.all_cons, Bool.and_eq_true] at hb2
      exact hb2.1
    unfold match1
    rw [h2]
    dsimp only
    rw [h4]
    dsimp only
    simp [h1, h3, List.takeWhile_cons, hz, hx, hy2]

theorem match2_isSome_iff (s : List Char) :
    (match2 s).isSome = true ↔ grammarLeftEllipsis s := by
  constructor
  · intro h
    unfold match2 at h
    split at h
    case h_2 => simp at h
    case h_1 z s1 =>
      dsimp only at h
      split at h
      case isFalse => simp at h
      case isTrue hz0 =>
        subst hz0
        split at h
        case h_2 => simp at h
        case h_1 y r2 heq =>
          split at h
          case isFalse => simp at h
          case isTrue hy =>
            subst hy
            split at h
            case h_2 => simp at h
            case h_1 d1 d2 d3 r4 heq2 =>
              split at h
              case isFalse => simp at h
              case isTrue hd =>
                obtain ⟨hd1, hd2, hd3⟩ := hd
                subst hd1
                subst hd2
                subst hd3
                split at h
                case isTrue => simp at h
                case isFalse hcond =>
                  rw [Bool.or_eq_true, Bool.or_eq_true] at hcond
                  push_neg at hcond
                  obtain ⟨⟨hae, hbe⟩, hce⟩ := hcond
                  refine ⟨s1.takeWhile Char.isAlpha, r2.takeWhile Char.isAlpha,
                    r4.takeWhile Char.isAlpha, r4.dropWhile Char.isAlpha,
                    ⟨isEmpty_false_ne_nil _ (by simpa using hae),
                      all_takeWhile _ _⟩,
                    ⟨isEmpty_false_ne_nil _ (by simpa using hbe),
                      all_takeWhile _ _⟩,
                    ⟨isEmpty_false_ne_nil _ (by simpa using hce),
                      all_takeWhile _ _⟩,
                    ?_⟩
                  have e1 : s1.takeWhile Char.isAlpha ++ ',' :: r2 = s1 := by
                    have t := List.takeWhile_append_dropWhile Char.isAlpha s1
                    rwa [heq] at t
                  have e2 : r2.takeWhile Char.isAlpha
                      ++ '-' :: '>' :: '0' :: r4 = r2 := by
                    have t := List.takeWhile_append_dropWhile Char.isAlpha r2
                    rwa [heq2] at t
                  have e3 : r4.takeWhile Char.isAlpha
                      ++ r4.dropWhile Char.isAlpha = r4 :=
                    List.takeWhile_append_dropWhile Char.isAlpha r4
                  rw [e3, e2, e1]
  · rintro ⟨a, b, c, rest, ⟨ha1, ha2⟩, ⟨hb1, hb2⟩, ⟨hc1, hc2⟩, rfl⟩
    obtain ⟨z, zs, rfl⟩ : ∃ z zs, c = z :: zs := by
      cases c
      · exact absurd rfl hc1
      · exact ⟨_, _, rfl⟩
    have hz : Char.isAlpha z = true := by
      rw [List.all_cons, Bool.and_eq_true] at hc2
      exact hc2.1
    obtain ⟨h1, h2⟩ := takeWhile_all_append Char.isAlpha a ','
      (b ++ ('-' :: ('>' :: ('0' :: (z :: zs ++ rest))))) ha2 (by decide)
    obtain ⟨h3, h4⟩ := takeWhile_all_append Char.isAlpha b '-'
      ('>' :: ('0' :: (z :: zs ++ rest))) hb2 (by decide)
    obtain ⟨x, xs, rfl⟩ : ∃ x xs, a = x :: xs := by
      cases a
      · exact absurd rfl ha1
      · exact ⟨_, _, rfl⟩
    obtain ⟨y, ys, rfl⟩ : ∃ y ys, b = y :: ys := by
      cases b
      · exact absurd rfl hb1
      · exact ⟨_, _, rfl⟩
    have hx : Char.isAlpha x = true := by
      rw [List.all_cons, Bool.and_eq_true] at ha2
      exact ha2.1
    have hy2 : Char.isAlpha y = true := by
      rw [List.all_cons, Bool.and_eq_true] at hb2
      exact hb2.1
    unfold match2
    dsimp only
    rw [h2]
    dsimp only
    rw [h4]
    dsimp only
    simp [h1, h3, List.takeWhile_cons, hz, hx, hy2]

theorem match3_isSome_iff (s : List Char) :
    (match3 s).isSome = true ↔ grammarRightEllipsis s := by
  constructor
  · intro h
    unfold match3 at h
    dsimp only at h
    split at h
    case h_2 => simp at h
    case h_1 d0 d1 r2 heq =>
      split at h
      case isFalse => simp at h
      case isTrue hd0 =>
        obtain ⟨hd0a, hd0b⟩ := hd0
        subst hd0a
        subst hd0b
        split at h
        case h_2 => simp at h
        case h_1 e1c e2c r4 heq2 =>
          split at h
          case isFalse => simp at h
          case isTrue he =>
            obtain ⟨he1, he2⟩ := he
            subst he1
            subst he2
            split at h
            case h_2 => simp at h
            case h_1 f1 rtail heq3 =>
              split at h
              case isFalse => simp at h
              case isTrue hf =>
                subst hf
                split at h
                case isTrue => simp at h
                case isFalse hcond =>
                  rw [Bool.or_eq_true, Bool.or_eq_true] at hcond
                  push_neg at hcond
                  obtain ⟨⟨hae, hbe⟩, hce⟩ := hcond
                  refine ⟨s.takeWhile Char.isAlpha, r2.takeWhile Char.isAlpha,
                    r4.takeWhile Char.isAlpha, rtail,
                    ?_, all_takeWhile _ _,
                    ⟨isEmpty_false_ne_nil _ (by simpa using hbe),
                      all_takeWhile _ _⟩,
                    ⟨isEmpty_false_ne_nil _ (by simpa using hce),
                      all_takeWhile _ _⟩,
                    ?_⟩
                  · by_contra hlt
                    apply hae
                    simp only [decide_eq_true_eq]
                    omega
                  · have e1 : s.takeWhile Char.isAlpha
                        ++ '0' :: ',' :: r2 = s := by
                      have t := List.takeWhile_append_dropWhile Char.isAlpha s
                      rwa [heq] at t
                    have e2 : r2.takeWhile Char.isAlpha
                        ++ '-' :: '>' :: r4 = r2 := by
                      have t := List.takeWhile_append_dropWhile Char.isAlpha r2
                      rwa [heq2] at t
                    have e3 : r4.takeWhile Char.isAlpha ++ '0' :: rtail
                        = r4 := by
                      have t := List.takeWhile_append_dropWhile Char.isAlpha r4
                      rwa [heq3] at t
                    rw [e3, e2, e1]
  · rintro ⟨a, b, c, rest, ha1, ha2, ⟨hb1, hb2⟩, ⟨hc1, hc2⟩, rfl⟩
    obtain ⟨z, zs, rfl⟩ : ∃ z zs, c = z :: zs := by
      cases c
      · exact absurd rfl hc1
      · exact ⟨_, _, rfl⟩
    have hz : Char.isAlpha z = true := by
      rw [List.all_cons, Bool.and_eq_true] at hc2
      exact hc2.1
    obtain ⟨h1, h2⟩ := takeWhile_all_append Char.isAlpha a '0'
      (',' :: (b ++ ('-' :: ('>' :: (z :: zs ++ ('0' :: rest)))))) ha2
      (by decide)
    obtain ⟨h3, h4⟩ := takeWhile_all_append Char.isAlpha b '-'
      ('>' :: (z :: zs ++ ('0' :: rest))) hb2 (by decide)
    obtain ⟨h5, h6⟩ := takeWhile_all_append Char.isAlpha (z :: zs) '0'
      rest hc2 (by decide)
    obtain ⟨x1, a1, rfl⟩ : ∃ x1 a1, a = x1 :: a1 := by
      cases a
      · simp at ha1
      · exact ⟨_, _, rfl⟩
    obtain ⟨x2, a2, rfl⟩ : ∃ x2 a2, a1 = x2 :: a2 := by
      cases a1
      · simp at ha1
      · exact ⟨_, _, rfl⟩
    obtain ⟨y, ys, rfl⟩ : ∃ y ys, b = y :: ys := by
      cases b
      · exact absurd rfl hb1
      · exact ⟨_, _, rfl⟩
    have hy2 : Char.isAlpha y = true := by
      rw [List.all_cons, Bool.and_eq_true] at hb2
      exact hb2.1
    have hlen : ¬((x1 :: x2 :: a2 : List Char).length < 2) := by
      simp only [List.length_cons]
      omega
    unfold match3
    rw [h2]
    dsimp only
    rw [h4]
    dsimp only
    rw [h6]
    dsimp only
    rw [h1, h3, h5]
    simp [hlen]

/-- C6 (amended): the equation analyzer applies its three regexes with
prefix semantics (`re.match` anchors only at the start), and both call
sites pass the integer input rank, so over the dot-replaced equation:
`get_specs` returns specs exactly when a prefix matches the no-ellipsis
grammar (trailing characters — for example an ellipsis only at the end of
the output spec — are ignored); it crashes with `TypeError` at
`len(input_shape)` exactly when no prefix matches the no-ellipsis grammar
but one matches the left- or right-ellipsis grammar; and it raises the
invalid-equation configuration error exactly when no prefix matches any of
the three grammars.  It never accepts an equation through the ellipsis
branches. -/
theorem grammar_accepts_iff (e : List Char) (r : Nat) :
    ((∃ specs, getSpecs e r = Except.ok specs) ↔
        grammarNoEllipsis (dotReplace e)) ∧
    (getSpecs e r = Except.error QErr.typeError ↔
        (¬grammarNoEllipsis (dotReplace e) ∧
          (grammarLeftEllipsis (dotReplace e) ∨
            grammarRightEllipsis (dotReplace e)))) ∧
    (getSpecs e r = Except.error QErr.invalidEquation ↔
      ¬(grammarNoEllipsis (dotReplace e) ∨ grammarLeftEllipsis (dotReplace e)
        ∨ grammarRightEllipsis (dotReplace e))) := by
  unfold getSpecs
  dsimp only
  cases h1 : match1 (dotReplace e) with
  | some v =>
    obtain ⟨i, w, o⟩ := v
    have hg1 : grammarNoEllipsis (dotReplace e) :=
      (match1_isSome_iff _).mp (by rw [h1]; rfl)
    refine ⟨⟨fun _ => hg1, fun _ => ⟨(i, w, o), rfl⟩⟩, ?_, ?_⟩
    · constructor
      · intro hc
        exact Except.noConfusion hc
      · rintro ⟨hng1, -⟩
        exact absurd hg1 hng1
    · constructor
      · intro hc
        exact Except.noConfusion hc
      · intro hn
        exact absurd (Or.inl hg1) hn
  | none =>
    have ng1 : ¬grammarNoEllipsis (dotReplace e) := by
      intro hg
      have hm := (match1_isSome_iff (dotReplace e)).mpr hg
      rw [h1] at hm
      simp at hm
    cases h2 : match2 (dotReplace e) with
    | some v =>
      have hg2 : grammarLeftEllipsis (dotReplace e) :=
        (match2_isSome_iff _).mp (by rw [h2]; rfl)
      refine ⟨?_, ?_, ?_⟩
      · constructor
        · rintro ⟨specs, hc⟩
          exact Except.noConfusion hc
        · intro hg
          exact absurd hg ng1
      · exact ⟨fun _ => ⟨ng1, Or.inl hg2⟩, fun _ => rfl⟩
      · constructor
        · intro hc
          exact absurd (Except.error.inj hc) (by decide)
        · intro hn
          exact absurd (Or.inr (Or.inl hg2)) hn
    | none =>
      have ng2 : ¬grammarLeftEllipsis (dotReplace e) := by
        intro hg
        have hm := (match2_isSome_iff (dotReplace e)).mpr hg
        rw [h2] at hm
        simp at hm
      cases h3 : match3 (dotReplace e) with
      | some v =>
        have hg3 : grammarRightEllipsis (dotReplace e) :=
          (match3_isSome_iff _).mp (by rw [h3]; rfl)
        refine ⟨?_, ?_, ?_⟩
        · constructor
          · rintro ⟨specs, hc⟩
            exact Except.noConfusion hc
          · intro hg
            exact absurd hg ng1
        · exact ⟨fun _ => ⟨ng1, Or.inr hg3⟩, fun _ => rfl⟩
        · constructor
          · intro hc
            exact absurd (Except.error.inj hc) (by decide)
          · intro hn
            exact absurd (Or.inr (Or.inr hg3)) hn
      | none =>
        have ng3 : ¬grammarRightEllipsis (dotReplace e) := by
          intro hg
          have hm := (match3_isSome_iff (dotReplace e)).mpr hg
          rw [h3] at hm
          simp at hm
        refine ⟨?_, ?_, ?_⟩
        · constructor
          · rintro ⟨specs, hc⟩
            exact Except.noConfusion hc
          · intro hg
            exact absurd hg ng1
        · constructor
          · intro hc
            exact absurd (Except.error.inj hc) (by decide)
          · rintro ⟨-, hg | hg⟩
            · exact absurd hg ng2
            · exact absurd hg ng3
        · constructor
          · rintro - (hg | hg | hg)
            · exact ng1 hg
            · exact ng2 hg
            · exact ng3 hg
          · intro _
            rfl

theorem pyGet_ok_getD (l : List (Option Nat)) (n : Int) (hn : 0 ≤ n)
    (v : Option Nat) (h : pyGet l n = .ok v) : l.getD n.toNat none = v := by
  unfold pyGet at h
  rw [if_pos hn] at h
  cases hg : l.get? n.toNat with
  | none => rw [hg] at h; exact Except.noConfusion h
  | some a =>
    rw [hg] at h
    rw [List.getD_eq_get?, hg]
    exact Except.ok.inj h

theorem hasChar_iff_mem (l : List Char) (c : Char) :
    hasChar l c = true ↔ c ∈ l := by
  induction l with
  | nil => simp [hasChar]
  | cons x xs ih =>
    simp only [hasChar, Bool.or_eq_true, decide_eq_true_eq, ih,
      List.mem_cons]
    constructor
    · rintro (h | h)
      · exact Or.inl h.symm
      · exact Or.inr h
    · rintro (h | h)
      · exact Or.inl h.symm
      · exact Or.inr h

theorem biasAxesCheck_all (oSpec : List Char) :
    ∀ bs : List Char, biasAxesCheck oSpec bs = .ok () →
      bs.all (fun c => hasChar oSpec c) = true := by
  intro bs
  induction bs with
  | nil => intro _; rfl
  | cons c cs ih =>
    intro h
    unfold biasAxesCheck at h
    split at h
    · exact Except.noConfusion h
    case isFalse hin =>
      rw [List.all_cons]
      have h1 : hasChar oSpec c = true := by
        cases hcc : hasChar oSpec c
        · exact absurd (by simp [hcc]) hin
        · rfl
      rw [h1, ih h]
      rfl

theorem findFirst_spec (c : Char) :
    ∀ (l : List Char) (p : Nat), findFirst c l = some p →
      l.get? p = some c ∧ ∀ q, q < p → l.get? q ≠ some c := by
  intro l
  induction l with
  | nil => intro p h; exact Option.noConfusion h
  | cons x xs ih =>
    intro p h
    unfold findFirst at h
    split at h
    case isTrue hx =>
      subst hx
      obtain rfl : p = 0 := (Option.some.inj h).symm
      exact ⟨rfl, fun q hq => absurd hq (Nat.not_lt_zero q)⟩
    case isFalse hx =>
      cases hf : findFirst c xs with
      | none => rw [hf] at h; exact Option.noConfusion h
      | some p2 =>
        rw [hf] at h
        obtain rfl : p = p2 + 1 := (Option.some.inj h).symm
        obtain ⟨ih1, ih2⟩ := ih p2 hf
        refine ⟨ih1, ?_⟩
        intro q hq
        cases q with
        | zero =>
          simp only [List.get?]
          intro hcontra
          exact hx (Option.some.inj hcontra)
        | succ q2 =>
          simp only [List.get?]
          exact ih2 q2 (Nat.lt_of_succ_lt_succ hq)

theorem buildIdxMap_none_lookup (fullOut : List (Option Nat)) (off : Int) :
    ∀ (cs : List Char) (k : Nat) (entries : List (Char × Option Nat))
      (c : Char),
      buildIdxMap fullOut off cs k = .ok entries →
      hasChar cs c = false →
      dictLookup entries c = none := by
  intro cs
  induction cs with
  | nil =>
    intro k entries c h _
    obtain rfl : ([] : List (Char × Option Nat)) = entries :=
      Except.ok.inj h
    rfl
  | cons c0 cs2 ih =>
    intro k entries c h hmem
    unfold buildIdxMap at h
    cases h1 : pyGet fullOut ((k : Int) + off) with
    | error e => rw [h1] at h; exact Except.noConfusion h
    | ok v0 =>
      rw [h1] at h
      cases h2 : buildIdxMap fullOut off cs2 (k + 1) with
      | error e => rw [h2] at h; exact Except.noConfusion h
      | ok rest =>
        rw [h2] at h
        obtain rfl : (c0, v0) :: rest = entries := Except.ok.inj h
        unfold hasChar at hmem
        rw [Bool.or_eq_false_iff] at hmem
        obtain ⟨hne, hmem2⟩ := hmem
        unfold dictLookup
        rw [ih (k + 1) rest c h2 hmem2]
        have : ¬(c0 = c) := by simpa using hne
        simp [this]

theorem idxMap_lookup (fullOut : List (Option Nat)) (off : Int) :
    ∀ (cs : List Char) (k : Nat) (entries : List (Char × Option Nat))
      (c : Char) (j : Nat),
      buildIdxMap fullOut off cs k = .ok entries →
      cs.get? j = some c →
      (∀ j2, j2 ≠ j → cs.get? j2 ≠ some c) →
      ∃ v, dictLookup entries c = some v ∧
        pyGet fullOut (((k + j : Nat) : Int) + off) = .ok v := by
  intro cs
  induction cs with
  | nil => intro k entries c j _ hget _; exact Option.noConfusion hget
  | cons c0 cs2 ih =>
    intro k entries c j h hget huniq
    unfold buildIdxMap at h
    cases h1 : pyGet fullOut ((k : Int) + off) with
    | error e => rw [h1] at h; exact Except.noConfusion h
    | ok v0 =>
      rw [h1] at h
      cases h2 : buildIdxMap fullOut off cs2 (k + 1) with
      | error e => rw [h2] at h; exact Except.noConfusion h
      | ok rest =>
        rw [h2] at h
        obtain rfl : (c0, v0) :: rest = entries := Except.ok.inj h
        cases j with
        | zero =>
          obtain rfl : c0 = c := Option.some.inj hget
          have hnotin : hasChar cs2 c0 = false := by
            cases hcc : hasChar cs2 c0
            · rfl
            · exfalso
              rw [hasChar_iff_mem] at hcc
              obtain ⟨n, hn⟩ := List.mem_iff_get?.mp hcc
              exact huniq (n + 1) (by omega) hn
          refine ⟨v0, ?_, by simpa using h1⟩
          unfold dictLookup
          rw [buildIdxMap_none_lookup fullOut off cs2 (k + 1) rest c0 h2
            hnotin]
          simp
        | succ j2 =>
          have hget2 : cs2.get? j2 = some c := hget
          have huniq2 : ∀ m, m ≠ j2 → cs2.get? m ≠ some c := by
            intro m hm
            exact huniq (m + 1) (by omega)
          obtain ⟨v, hv1, hv2⟩ := ih (k + 1) rest c j2 h2 hget2 huniq2
          refine ⟨v, ?_, ?_⟩
          · unfold dictLookup
            rw [hv1]
          · have harith : ((k + 1 + j2 : Nat) : Int) + off
                = ((k + (j2 + 1) : Nat) : Int) + off := by
              push_cast
              ring_nf
            rwa [harith] at hv2

theorem firstBiasIdx_before (bs : List Char) :
    ∀ (oSpec : List Char) (q : Nat) (c : Char),
      q < firstBiasIdx bs oSpec → oSpec.get? q = some c →
      hasChar bs c = false := by
  intro oSpec
  induction oSpec with
  | nil => intro q c _ hget; exact Option.noConfusion hget
  | cons c0 cs ih =>
    intro q c hq hget
    unfold firstBiasIdx at hq
    split at hq
    · exact absurd hq (Nat.not_lt_zero q)
    case isFalse h0 =>
      cases q with
      | zero =>
        obtain rfl : c0 = c := Option.some.inj hget
        cases hcc : hasChar bs c0
        · rfl
        · exact absurd (by simp [hcc]) h0
      | succ q2 =>
        exact ih q2 c (Nat.lt_of_succ_lt_succ hq) hget

theorem firstBiasIdx_at (bs : List Char) :
    ∀ (oSpec : List Char) (c : Char),
      hasChar bs c = true → hasChar oSpec c = true →
      ∃ cF, oSpec.get? (firstBiasIdx bs oSpec) = some cF ∧
        hasChar bs cF = true := by
  intro oSpec
  induction oSpec with
  | nil => intro c _ hc2; exact absurd hc2 (by simp [hasChar])
  | cons c0 cs ih =>
    intro c hc1 hc2
    unfold firstBiasIdx
    by_cases h0 : hasChar bs c0 = true
    · rw [if_pos (by simp [h0])]
      exact ⟨c0, rfl, h0⟩
    · rw [if_neg h0]
      have hcc : c0 ≠ c := by
        intro hcontra
        rw [hcontra] at h0
        exact h0 hc1
      have hc2b : hasChar cs c = true := by
        unfold hasChar at hc2
        rw [Bool.or_eq_true] at hc2
        rcases hc2 with h | h
        · exact absurd (decide_eq_true_eq.mp h) hcc
        · exact h
      obtain ⟨cF, h1, h2⟩ := ih c hc1 hc2b
      exact ⟨cF, h1, h2⟩

theorem foldl_min_le_init (fs : List Int) :
    ∀ f : Int, fs.foldl min f ≤ f := by
  induction fs with
  | nil => intro f; exact le_refl f
  | cons x xs ih =>
    intro f
    calc xs.foldl min (min f x) ≤ min f x := ih (min f x)
      _ ≤ f := min_le_left f x

theorem foldl_min_le_mem (fs : List Int) :
    ∀ (f x : Int), x ∈ fs → fs.foldl min f ≤ x := by
  induction fs with
  | nil => intro f x hx; exact absurd hx (List.not_mem_nil x)
  | cons y ys ih =>
    intro f x hx
    rcases List.mem_cons.mp hx with rfl | hx2
    · calc ys.foldl min (min f x) ≤ min f x := foldl_min_le_init ys _
        _ ≤ x := min_le_right f x
    · exact ih (min f y) x hx2

theorem foldl_min_mem (fs : List Int) :
    ∀ f : Int, fs.foldl min f = f ∨ fs.foldl min f ∈ fs := by
  induction fs with
  | nil => intro f; exact Or.inl rfl
  | cons x xs ih =>
    intro f
    rcases ih (min f x) with h | h
    · rcases le_total f x with hle | hle
      · rw [List.foldl_cons, h, min_eq_left hle]
        exact Or.inl rfl
      · rw [List.foldl_cons, h, min_eq_right hle]
        exact Or.inr (List.mem_cons_self x xs)
    · exact Or.inr (List.mem_cons_of_mem x h)

theorem find_ge_firstBiasIdx (oSpec bs : List Char) (c : Char)
    (hc : hasChar bs c = true) (ho : hasChar oSpec c = true) :
    (firstBiasIdx bs oSpec : Int) ≤ findInt c oSpec := by
  obtain ⟨p, hp⟩ := Option.isSome_iff_exists.mp
    (by rw [findFirst_isSome_eq_hasChar]; exact ho)
  obtain ⟨hget, _⟩ := findFirst_spec c oSpec p hp
  unfold findInt
  rw [hp]
  dsimp only
  have hnlt : ¬(p < firstBiasIdx bs oSpec) := by
    intro hlt
    have hfalse := firstBiasIdx_before bs oSpec p c hlt hget
    rw [hfalse] at hc
    exact Bool.noConfusion hc
  omega

theorem min_find_eq_firstBiasIdx (oSpec : List Char) (b0 : Char)
    (brest : List Char)
    (hall : (b0 :: brest).all (fun c => hasChar oSpec c) = true) :
    (brest.map (fun c => findInt c oSpec)).foldl min (findInt b0 oSpec)
      = (firstBiasIdx (b0 :: brest) oSpec : Int) := by
  have hallb : ∀ c ∈ b0 :: brest, hasChar oSpec c = true := by
    intro c hc
    simpa using List.all_eq_true.mp hall c hc
  have hb0bs : hasChar (b0 :: brest) b0 = true := by
    unfold hasChar
    simp
  have hlow : (firstBiasIdx (b0 :: brest) oSpec : Int) ≤
      (brest.map (fun c => findInt c oSpec)).foldl min (findInt b0 oSpec) := by
    rcases foldl_min_mem (brest.map fun c => findInt c oSpec)
        (findInt b0 oSpec) with h | h
    · rw [h]
      exact find_ge_firstBiasIdx oSpec (b0 :: brest) b0 hb0bs
        (hallb b0 (List.mem_cons_self _ _))
    · obtain ⟨c, hcmem, hceq⟩ := List.mem_map.mp h
      rw [← hceq]
      refine find_ge_firstBiasIdx oSpec (b0 :: brest) c ?_
        (hallb c (List.mem_cons_of_mem b0 hcmem))
      rw [hasChar_iff_mem]
      exact List.mem_cons_of_mem b0 hcmem
  obtain ⟨cF, hgF, hcFbs⟩ := firstBiasIdx_at (b0 :: brest) oSpec b0 hb0bs
    (hallb b0 (List.mem_cons_self _ _))
  have hoF : hasChar oSpec cF = true := by
    rw [hasChar_iff_mem]
    exact List.get?_mem hgF
  obtain ⟨pF, hpF⟩ := Option.isSome_iff_exists.mp
    (by rw [findFirst_isSome_eq_hasChar]; exact hoF)
  obtain ⟨hgetpF, hfirst⟩ := findFirst_spec cF oSpec pF hpF
  have hple : pF ≤ firstBiasIdx (b0 :: brest) oSpec := by
    by_contra hlt
    exact hfirst (firstBiasIdx (b0 :: brest) oSpec) (by omega) hgF
  have hFle : firstBiasIdx (b0 :: brest) oSpec ≤ pF := by
    by_contra hlt
    have hfalse := firstBiasIdx_before (b0 :: brest) oSpec pF cF (by omega)
      hgetpF
    rw [hfalse] at hcFbs
    exact Bool.noConfusion hcFbs
  have hfindcF : findInt cF oSpec
      = (firstBiasIdx (b0 :: brest) oSpec : Int) := by
    unfold findInt
    rw [hpF, le_antisymm hple hFle]
  have hupp : (brest.map (fun c => findInt c oSpec)).foldl min
      (findInt b0 oSpec) ≤ (firstBiasIdx (b0 :: brest) oSpec : Int) := by
    rw [← hfindcF]
    rcases List.mem_cons.mp ((hasChar_iff_mem _ _).mp hcFbs) with rfl | hmem
    · exact foldl_min_le_init _ _
    · exact foldl_min_le_mem _ _ _ (List.mem_map.mpr ⟨cF, hmem, rfl⟩)
  exact le_antisymm hupp hlow

theorem biasShapeComp_walk (fullOut : List (Option Nat)) (off : Int)
    (oSpec : List Char) (entries : List (Char × Option Nat))
    (bs : List Char)
    (hmap : buildIdxMap fullOut off oSpec 0 = .ok entries)
    (hnd : oSpec.Nodup) (hoff : 0 ≤ off) :
    ∀ (tail : List Char) (start : Nat) (shape : List (Option Nat)),
      oSpec.drop start = tail →
      biasShapeComp entries bs tail = .ok shape →
      shape = (List.range tail.length).map (fun j =>
        if hasChar bs (oSpec.getD (start + j) ' ') then
          fullOut.getD (start + j + off.toNat) none
        else some 1) := by
  intro tail
  induction tail with
  | nil =>
    intro start shape _ hcomp
    obtain rfl : ([] : List (Option Nat)) = shape := Except.ok.inj hcomp
    rfl
  | cons c tail2 ih =>
    intro start shape hdrop hcomp
    have hget : oSpec.get? start = some c := by
      have h0 := List.get?_drop oSpec start 0
      rw [hdrop] at h0
      simpa using h0.symm
    have hdrop2 : oSpec.drop (start + 1) = tail2 := by
      have hd := List.drop_drop 1 start oSpec
      rw [hdrop] at hd
      simpa using hd.symm
    have hgetD : oSpec.getD start ' ' = c := by
      rw [List.getD_eq_get?, hget]
      rfl
    unfold biasShapeComp at hcomp
    by_cases hbc : hasChar bs c = true
    · have huniq : ∀ j2, j2 ≠ start → oSpec.get? j2 ≠ some c := by
        intro j2 hne hcontra
        obtain ⟨hlt2, _⟩ := List.get?_eq_some.mp hcontra
        exact hne (List.get?_inj hlt2 hnd (hcontra.trans hget.symm))
      obtain ⟨v0, hv0look, hv0get⟩ :=
        idxMap_lookup fullOut off oSpec 0 entries c start hmap hget huniq
      rw [if_pos hbc, hv0look] at hcomp
      dsimp only at hcomp
      cases hrec : biasShapeComp entries bs tail2 with
      | error e => rw [hrec] at hcomp; exact Except.noConfusion hcomp
      | ok vs =>
        rw [hrec] at hcomp
        obtain rfl : v0 :: vs = shape := Except.ok.inj hcomp
        have ihs := ih (start + 1) vs hdrop2 hrec
        rw [List.length_cons, List.range_succ_eq_map, List.map_cons,
          List.map_map]
        congr 1
        · rw [Nat.add_zero, hgetD, if_pos hbc]
          have hv0 := pyGet_ok_getD fullOut (((0 + start : Nat) : Int) + off)
            (by omega) v0 hv0get
          have harith : ((((0 + start : Nat) : Int) + off)).toNat
              = start + off.toNat := by omega
          rw [harith] at hv0
          exact hv0.symm
        · rw [ihs]
          congr 1
          funext j
          simp only [Function.comp_apply]
          have harith : start + 1 + j = start + Nat.succ j := by omega
          rw [harith]
    · rw [if_neg hbc] at hcomp
      dsimp only at hcomp
      cases hrec : biasShapeComp entries bs tail2 with
      | error e => rw [hrec] at hcomp; exact Except.noConfusion hcomp
      | ok vs =>
        rw [hrec] at hcomp
        obtain rfl : (some 1 :: vs : List (Option Nat)) = shape :=
          Except.ok.inj hcomp
        have ihs := ih (start + 1) vs hdrop2 hrec
        rw [List.length_cons, List.range_succ_eq_map, List.map_cons,
          List.map_map]
        congr 1
        · rw [Nat.add_zero, hgetD, if_neg hbc]
        · rw [ihs]
          congr 1
          funext j
          simp only [Function.comp_apply]
          have harith : start + 1 + j = start + Nat.succ j := by omega
          rw [harith]

theorem biasSection_ok_spec (oSpec : List Char) (fullOut : List (Option Nat))
    (elided : Int) (leftE : Bool) (bs : List Char)
    (shape : List (Option Nat))
    (h : biasSection oSpec fullOut elided leftE bs = .ok shape) :
    bs.all (fun c => hasChar oSpec c) = true ∧
    (oSpec.Nodup → 0 ≤ elided →
      shape = specBiasShape oSpec fullOut bs
        (if leftE then elided.toNat else 0) elided.toNat leftE) := by
  unfold biasSection at h
  dsimp only at h
  cases h1 : buildIdxMap fullOut (if leftE then elided else 0) oSpec 0 with
  | error e => rw [h1] at h; exact Except.noConfusion h
  | ok idxEntries =>
    rw [h1] at h
    dsimp only at h
    cases h2 : biasAxesCheck oSpec bs with
    | error e => rw [h2] at h; exact Except.noConfusion h
    | ok u =>
      rw [h2] at h
      dsimp only at h
      obtain rfl : u = () := rfl
      have hall : bs.all (fun c => hasChar oSpec c) = true :=
        biasAxesCheck_all oSpec bs h2
      refine ⟨hall, ?_⟩
      intro hnd hel
      cases bs with
      | nil => exact Except.noConfusion h
      | cons b0 brest =>
        rw [List.map_cons] at h
        dsimp only at h
        have hmin : (brest.map (fun c => findInt c oSpec)).foldl min
            (findInt b0 oSpec)
            = (firstBiasIdx (b0 :: brest) oSpec : Int) :=
          min_find_eq_firstBiasIdx oSpec b0 brest hall
        rw [hmin] at h
        have htn : ((firstBiasIdx (b0 :: brest) oSpec : Int)).toNat
            = firstBiasIdx (b0 :: brest) oSpec := Int.toNat_ofNat _
        rw [htn] at h
        have hoff : 0 ≤ (if leftE then elided else 0) := by
          cases leftE
          · simp
          · simpa using hel
        cases h3 : biasShapeComp idxEntries (b0 :: brest)
            (oSpec.drop (firstBiasIdx (b0 :: brest) oSpec)) with
        | error e => rw [h3] at h; exact Except.noConfusion h
        | ok shape2 =>
          rw [h3] at h
          have hwalk := biasShapeComp_walk fullOut
            (if leftE then elided else 0) oSpec idxEntries (b0 :: brest) h1
            hnd hoff (oSpec.drop (firstBiasIdx (b0 :: brest) oSpec))
            (firstBiasIdx (b0 :: brest) oSpec) shape2 rfl h3
          have hofftn : (if leftE then elided else 0 : Int).toNat
              = if leftE then elided.toNat else 0 := by
            cases leftE <;> simp
          unfold specBiasShape
          dsimp only
          rw [List.length_drop] at hwalk
          rw [hofftn] at hwalk
          cases leftE with
          | false =>
            obtain rfl : shape2
                ++ List.replicate elided.toNat (some 1) = shape :=
              Except.ok.inj h
            rw [hwalk]
            simp
          | true =>
            obtain rfl : shape2 = shape := Except.ok.inj h
            rw [hwalk]
            simp

theorem splitString_bias_destruct (iSpec wSpec oSpec : List Char)
    (leftE : Bool) (bs : List Char) (iShape givenOut : List (Option Nat))
    (w : List (Option Nat)) (b : Option (List (Option Nat)))
    (fullOut : List (Option Nat))
    (hok : analyzeSplitString iSpec wSpec oSpec leftE (some bs) iShape
        givenOut = .ok (w, b, fullOut)) :
    ∃ bShape, biasSection oSpec fullOut
        ((iShape.length : Int) - (iSpec.length : Int)) leftE bs
        = .ok bShape ∧ b = some bShape := by
  unfold analyzeSplitString at hok
  dsimp only at hok
  cases g1 : pyGet iShape 0 with
  | error e => rw [g1] at hok; exact Except.noConfusion hok
  | ok s0 =>
    rw [g1] at hok
    dsimp only at hok
    split at hok
    case h_1 => exact Except.noConfusion hok
    case h_2 fullOut2 heqFO =>
      split at hok
      case h_1 => exact Except.noConfusion hok
      case h_2 =>
        split at hok
        case h_1 => exact Except.noConfusion hok
        case h_2 =>
          split at hok
          case h_1 => exact Except.noConfusion hok
          case h_2 w2 heqW =>
            split at hok
            case h_1 => exact Except.noConfusion hok
            case h_2 bShape heqB =>
              obtain ⟨hw, hb, hfull⟩ :
                  w2 = w ∧ some bShape = b ∧ fullOut2 = fullOut := by
                have hinj := Except.ok.inj hok
                exact ⟨congrArg Prod.fst hinj,
                  congrArg (fun p => p.2.1) hinj,
                  congrArg (fun p => p.2.2) hinj⟩
              subst hfull
              exact ⟨bShape, heqB, hb.symm⟩

/-- C8: whenever `_analyze_split_string` succeeds with requested bias axes,
every requested bias axis is a label of the output spec (otherwise the call
fails), and — for a nonempty bias request over an output spec without
duplicate labels, with the input rank covering the labeled input spec — the
returned bias shape assigns each bias-labeled axis its size from the
already-resolved output shape and a broadcasting `1` to every other axis
from the first bias-bearing label onward, with elided axes appended as
trailing size-1 dims exactly when the ellipsis is not on the left. -/
theorem bias_shape_correct (iSpec wSpec oSpec : List Char) (leftE : Bool)
    (bs : List Char) (iShape givenOut : List (Option Nat))
    (w : List (Option Nat)) (b : Option (List (Option Nat)))
    (fullOut : List (Option Nat))
    (hok : analyzeSplitString iSpec wSpec oSpec leftE (some bs) iShape
        givenOut = .ok (w, b, fullOut)) :
    bs.all (fun c => hasChar oSpec c) = true ∧
    (bs ≠ [] → oSpec.Nodup → iSpec.length ≤ iShape.length →
      b = some (specBiasShape oSpec fullOut bs
        (if leftE then iShape.length - iSpec.length else 0)
        (iShape.length - iSpec.length) leftE)) := by
  obtain ⟨bShape, hbias, hb⟩ := splitString_bias_destruct iSpec wSpec oSpec
    leftE bs iShape givenOut w b fullOut hok
  obtain ⟨hall, hspec⟩ := biasSection_ok_spec oSpec fullOut
    ((iShape.length : Int) - (iSpec.length : Int)) leftE bs bShape hbias
  refine ⟨hall, ?_⟩
  intro _ hnd hlen
  have hel : 0 ≤ (iShape.length : Int) - (iSpec.length : Int) := by omega
  have htn : ((iShape.length : Int) - (iSpec.length : Int)).toNat
      = iShape.length - iSpec.length := by omega
  have hsh := hspec hnd hel
  rw [htn] at hsh
  rw [hb, hsh]

/-- Witness for `bias_shape_correct` at equation `ab,bc->ac` with bias axes
`c`, input shape `(None, 128)` and output shape `(64,)`. -/
theorem bias_shape_correct_witness :
    (['c'] : List Char).all (fun c => hasChar "ac".toList c) = true ∧
    (some [some 64] : Option (List (Option Nat)))
      = some (specBiasShape "ac".toList [none, some 64] ['c'] 0 0 false) := by
  have hok : analyzeSplitString "ab".toList "bc".toList "ac".toList false
      (some ['c']) [none, some 128] [some 64]
      = .ok ([some 128, some 64], some [some 64], [none, some 64]) := by
    decide
  have h := bias_shape_correct "ab".toList "bc".toList "ac".toList false
    ['c'] [none, some 128] [some 64] [some 128, some 64] (some [some 64])
    [none, some 64] hok
  exact ⟨h.1, h.2 (by decide) (by decide) (by decide)⟩
